import Mathlib

/-
Verification development for the hunk diff-filter utility (src/main.cpp).
The program is embedded shallowly: lines are Lean Strings (the raw fgets
buffer contents, marker character and trailing newline included), the
matcher classes become a Matcher structure holding a polarity and a
line predicate, and the two stateful loops (processHunk's scan and
processFile's segmentation loop) become folds over explicit state.
-/

namespace HunkTool

/-- strncmp(pre, s, |pre|) == 0 : the character list pre is a prefix of s. -/
def leadsWith : List Char → List Char → Bool
  | [], _ => true
  | _ :: _, [] => false
  | a :: as, b :: bs => a == b && leadsWith as bs

/-- strstr(hay, needle) != NULL : needle occurs contiguously inside hay. -/
def occursIn (needle : List Char) : List Char → Bool
  | [] => leadsWith needle []
  | c :: rest => leadsWith needle (c :: rest) || occursIn needle rest

/-- Match::Type from the source: In ( --in ) keeps, Out ( --out ) discards. -/
inductive MatchType
  | In
  | Out
deriving DecidableEq, BEq

/-- A constructed matcher: polarity, the pattern text (kept for toString),
and the line predicate implemented by the virtual match method. -/
structure Matcher where
  type : MatchType
  pat : String
  pred : String → Bool

/-- RawMatch::match: returns strstr(mPattern, line), i.e. the pattern is the
haystack and the whole line (marker and newline included) is the needle. -/
def rawMatch (pattern line : String) : Bool :=
  occursIn line.toList pattern.toList

/-- A RawMatch instance as built by main when the Raw flag is set. -/
def rawMatcher (t : MatchType) (pattern : String) : Matcher :=
  { type := t, pat := pattern, pred := rawMatch pattern }

/-- A RegexpMatch instance with the host regexec behaviour abstracted as a
function rx from pattern and line to Bool. -/
def regexMatcher (rx : String → String → Bool) (t : MatchType) (pattern : String) : Matcher :=
  { type := t, pat := pattern, pred := rx pattern }

/-- regexec for a pattern with no special characters: such a POSIX regular
expression matches a line exactly when the pattern occurs as a substring. -/
def litRegex (pattern line : String) : Bool :=
  occursIn pattern.toList line.toList

/-- regexec for a pattern of the shape caret-then-literal: POSIX anchors the
match at the start of the string handed to regexec. -/
def bolAnchor (pattern line : String) : Bool :=
  leadsWith pattern.toList line.toList

/-- Match::toString: snprintf(buf, ..., "--%s=%s", type == In ? "in" : "out", mPattern). -/
def matcherStr (m : Matcher) : String :=
  "--" ++ (if m.type == MatchType.In then "in" else "out") ++ "=" ++ m.pat

/-- Index (relative to the given matcher list) of the first matcher whose
predicate accepts the line, if any. -/
def firstMatchIdx (line : String) : List Matcher → Option Nat
  | [] => none
  | m :: rest =>
    if m.pred line then some 0 else (firstMatchIdx line rest).map (· + 1)

/-- buf[0]: the first character of the fgets buffer, NUL for the empty string. -/
def headChar (line : String) : Char :=
  line.toList.headD (Char.ofNat 0)

/-- The change-marker cases of the switch in processFile. -/
def markerChar (c : Char) : Bool :=
  c == '+' || c == '>' || c == '-' || c == '<'

/-- The inner loop of processHunk for one line: iterate m from i while
m < mi over the matchers, record whether an In matcher was seen, and on the
first predicate hit return that index (the C code sets match = m and breaks).
Returns the new value of match and of hasIns. -/
def scanLine (line : String) : List Matcher → Nat → Nat → Bool → Nat × Bool
  | [], _, mi, h => (mi, h)
  | m :: rest, i, mi, h =>
    if i < mi then
      let h1 := h || (m.type == MatchType.In)
      if m.pred line then (i, h1) else scanLine line rest (i + 1) mi h1
    else (mi, h)

/-- One iteration of processHunk's outer loop: scan the line when its
eligible flag is set, otherwise leave the state alone. -/
def scanStep (ms : List Matcher) (st : Nat × Bool) (bl : String × Bool) : Nat × Bool :=
  if bl.2 then scanLine bl.1 ms 0 st.1 st.2 else st

/-- The outer loop of processHunk: fold over the buffered lines, scanning
only the ones whose eligible flag is set; match starts at matches.size(). -/
def scanHunk (lines : List (String × Bool)) (ms : List Matcher) : Nat × Bool :=
  lines.foldl (scanStep ms) (ms.length, false)

/-- The keep decision of processHunk: discarded when hasIns and no match was
found, or when the selected matcher is an Out matcher; kept otherwise. -/
def hunkKept (lines : List (String × Bool)) (ms : List Matcher) : Bool :=
  let st := scanHunk lines ms
  if st.2 && st.1 == ms.length then false
  else if (match ms[st.1]? with
           | some mm => mm.type == MatchType.Out
           | none => false) then false
  else true

/-- processHunk's effect on standard output: all buffered line texts in
order when the hunk is kept, nothing when it is discarded. -/
def processHunk (lines : List (String × Bool)) (ms : List Matcher) : List String :=
  if hunkKept lines ms then lines.map Prod.fst else []

/-- scanLine instrumented with the verbose "Matched ..." diagnostic that the
C loop prints to stderr when a matcher hits. -/
def scanLineV (line : String) (vb : Bool) :
    List Matcher → Nat → Nat → Bool → Nat × Bool × List String
  | [], _, mi, h => (mi, h, [])
  | m :: rest, i, mi, h =>
    if i < mi then
      let h1 := h || (m.type == MatchType.In)
      if m.pred line then
        (i, h1, if vb then ["Matched " ++ matcherStr m ++ " " ++ line] else [])
      else scanLineV line vb rest (i + 1) mi h1
    else (mi, h, [])

/-- One iteration of the instrumented outer loop. -/
def scanStepV (ms : List Matcher) (vb : Bool) (st : Nat × Bool × List String)
    (bl : String × Bool) : Nat × Bool × List String :=
  if bl.2 then
    let r := scanLineV bl.1 vb ms 0 st.1 st.2.1
    (r.1, r.2.1, st.2.2 ++ r.2.2)
  else st

/-- scanHunk instrumented with the verbose diagnostics, accumulating the
stderr lines in order. -/
def scanHunkV (lines : List (String × Bool)) (ms : List Matcher) (vb : Bool) :
    Nat × Bool × List String :=
  lines.foldl (scanStepV ms vb) (ms.length, false, [])

/-- processHunk with both effects: first component stdout, second stderr
(the verbose dump of the hunk, the per-match reports and the decision line). -/
def processHunkV (lines : List (String × Bool)) (ms : List Matcher) (vb : Bool) :
    List String × List String :=
  let hdr := if vb then
      "Parsing hunk\n" :: lines.map (fun bl => (if bl.2 then "t" else "nil") ++ " " ++ bl.1)
    else []
  let st := scanHunkV lines ms vb
  if st.2.1 && st.1 == ms.length then
    ([], hdr ++ st.2.2 ++ (if vb then ["Hunk was discarded because of no matches\n"] else []))
  else if (match ms[st.1]? with
           | some mm => mm.type == MatchType.Out
           | none => false) then
    ([], hdr ++ st.2.2 ++
      (if vb then ["Hunk was discarded because of match " ++ toString st.1 ++ "\n"] else []))
  else
    (lines.map Prod.fst, hdr ++ st.2.2 ++
      (if vb then ["Hunk matched. printing " ++ toString lines.length ++ " lines\n"] else []))

/-- The flag bits of the enum Flag, as a record. -/
structure Config where
  matchContext : Bool
  matchHeaders : Bool
  raw : Bool
  verbose : Bool

/-- Line 153: !strncmp("--- ", buf, 4) || isdigit(buf[0]). -/
def isHunkStart (line : String) : Bool :=
  leadsWith "--- ".toList line.toList || (headChar line).isDigit

/-- Line 160: !strncmp("+++ ", buf, 4) == 0, the file-addition header test. -/
def isPlusHeader (line : String) : Bool :=
  leadsWith "+++ ".toList line.toList

/-- Line 160: !strncmp("@@ ", buf, 3) == 0, the range header test. -/
def isRangeHeader (line : String) : Bool :=
  leadsWith "@@ ".toList line.toList

/-- The segmentation state of processFile. The hunks field is ghost
instrumentation recording each buffer handed to processHunk, in order. -/
structure SegState where
  pending : List (String × Bool)
  seenHunkStart : Bool
  hunks : List (List (String × Bool))
  out : List String
  err : List String

/-- processHunk(pending, matches, flags): record the flushed buffer and
append its stdout and stderr effects. The pending buffer itself is not
touched here; the call sites clear it exactly where the C code does. -/
def flushPending (ms : List Matcher) (vb : Bool) (st : SegState) : SegState :=
  let r := processHunkV st.pending ms vb
  { st with hunks := st.hunks ++ [st.pending], out := st.out ++ r.1, err := st.err ++ r.2 }

/-- The body of processFile's while loop for one fgets line: the switch on
buf[0] is rendered as tests of the first character. -/
def segStep (cfg : Config) (ms : List Matcher) (st : SegState) (line : String) : SegState :=
  if isHunkStart line then
    let st1 := if st.seenHunkStart then
        { flushPending ms cfg.verbose st with pending := [] }
      else st
    { st1 with pending := st1.pending ++ [(line, cfg.matchHeaders)], seenHunkStart := true }
  else if !isPlusHeader line && !isRangeHeader line then
    if markerChar (headChar line) then
      { st with pending := st.pending ++ [(line, true)] }
    else if headChar line == ' ' then
      { st with pending := st.pending ++ [(line, cfg.matchContext)] }
    else
      let st1 := if st.seenHunkStart then
          { flushPending ms cfg.verbose st with pending := [], seenHunkStart := false }
        else st
      { st1 with pending := st1.pending ++ [(line, cfg.matchHeaders)] }
  else
    { st with pending := st.pending ++ [(line, cfg.matchHeaders)] }

/-- processFile: fold the loop body over the input lines starting from an
empty buffer, then the final processHunk(pending, matches, flags). -/
def processFile (cfg : Config) (ms : List Matcher) (input : List String) : SegState :=
  flushPending ms cfg.verbose (input.foldl (segStep cfg ms) ⟨[], false, [], [], []⟩)

/-- Matcher construction in main (the loop over the input vector): raw mode
builds RawMatch instances, otherwise RegexpMatch whose constructor calls
regcomp and exits with code 3 on failure; regcompOk abstracts regcomp
success, rx abstracts regexec. The error carries the exit code and the
stderr report. -/
def buildMatchers (rx : String → String → Bool) (regcompOk : String → Bool) (raw : Bool) :
    List (MatchType × String) → Except (Nat × String) (List Matcher)
  | [] => Except.ok []
  | (t, p) :: rest =>
    if raw then
      (buildMatchers rx regcompOk raw rest).map (fun ms => rawMatcher t p :: ms)
    else if regcompOk p then
      (buildMatchers rx regcompOk raw rest).map (fun ms => regexMatcher rx t p :: ms)
    else
      Except.error (3, "Invalid regexp " ++ p ++ "\n")

/-- main after option parsing, for a single input source: build the matchers
(possibly exiting 3 before any input is read), then run processFile.
Returns the exit code and the stdout lines. -/
def runHunk (rx : String → String → Bool) (regcompOk : String → Bool) (cfg : Config)
    (pats : List (MatchType × String)) (input : List String) : Nat × List String :=
  match buildMatchers rx regcompOk cfg.raw pats with
  | Except.error e => (e.1, [])
  | Except.ok ms => (0, (processFile cfg ms input).out)

/-- Modelled from the spec: scan the hunk's lines in order and stop at the
first eligible line that any matcher (in command-line order) accepts; the
result is the index of that first matching line/matcher pair. -/
def specFirstDecision : List (String × Bool) → List Matcher → Option Nat
  | [], _ => none
  | bl :: rest, ms =>
    if bl.2 then
      match firstMatchIdx bl.1 ms with
      | some j => some j
      | none => specFirstDecision rest ms
    else specFirstDecision rest ms

/-- A line on which the default branch of the switch runs: no hunk-start
marker, no file-addition or range header, and a first character that is not
a change marker or a space. -/
def isOther (line : String) : Bool :=
  !isHunkStart line && !isPlusHeader line && !isRangeHeader line &&
  !markerChar (headChar line) && !(headChar line == ' ')

/-- Lines that flush the pending buffer when seenHunkStart holds. -/
def isTrigger (line : String) : Bool :=
  isHunkStart line || isOther line

/-- Evolution of seenHunkStart over one line, independent of the buffer. -/
def updSeen (s : Bool) (line : String) : Bool :=
  if isHunkStart line then true else if isOther line then false else s

/-- The eligibility flag stored with a line, read off the branch of segStep
that appends it; it depends only on the line text and the configuration. -/
def eligOf (cfg : Config) (line : String) : Bool :=
  if isHunkStart line then cfg.matchHeaders
  else if !isPlusHeader line && !isRangeHeader line then
    if markerChar (headChar line) then true
    else if headChar line == ' ' then cfg.matchContext
    else cfg.matchHeaders
  else cfg.matchHeaders

/-- Attach the recomputed eligibility flags to a list of line texts. -/
def attachL (cfg : Config) (p : List String) : List (String × Bool) :=
  p.map (fun l => (l, eligOf cfg l))

/-- Text-level segmentation: the hunks flushed while consuming the input,
given the seen flag and the pending texts. -/
def spill (s : Bool) (p : List String) : List String → List (List String)
  | [] => []
  | l :: rest =>
    if s && isTrigger l then p :: spill (updSeen s l) [l] rest
    else spill (updSeen s l) (p ++ [l]) rest

/-- Text-level pending buffer after consuming the input. -/
def pendAfter (s : Bool) (p : List String) : List String → List String
  | [] => p
  | l :: rest =>
    if s && isTrigger l then pendAfter (updSeen s l) [l] rest
    else pendAfter (updSeen s l) (p ++ [l]) rest

/-- Text-level seen flag after consuming the input. -/
def seenAfter (s : Bool) : List String → Bool
  | [] => s
  | l :: rest => seenAfter (updSeen s l) rest

/-- All hunks of a run, the final flush included. -/
def chunksT (s : Bool) (p : List String) (input : List String) : List (List String) :=
  spill s p input ++ [pendAfter s p input]

/-- No line of the list flushes when fed from seen flag s. -/
def quiet (s : Bool) : List String → Bool
  | [] => true
  | l :: rest => !(s && isTrigger l) && quiet (updSeen s l) rest

/-- The keep decision on a text hunk, with eligibility flags recomputed. -/
def keptT (cfg : Config) (ms : List Matcher) (h : List String) : Bool :=
  hunkKept (attachL cfg h) ms

/-- The spec-side value computed by processHunk's scan: the smallest matcher
index matching the line when the line is eligible, folded with min. -/
def lineMin (ms : List Matcher) (b : Nat) (bl : String × Bool) : Nat :=
  if bl.2 then
    match firstMatchIdx bl.1 ms with
    | some r => min b r
    | none => b
  else b

/-- The minimum, over all eligible lines, of the first matcher index
matching the line; matches.size() when nothing matches. -/
def hunkMin (lines : List (String × Bool)) (ms : List Matcher) : Nat :=
  lines.foldl (lineMin ms) ms.length

/-- A configuration with every flag clear. -/
def cfgPlain : Config :=
  { matchContext := false, matchHeaders := false, raw := false, verbose := false }

/-- The configuration produced by --match-raw alone. -/
def cfgRaw : Config :=
  { matchContext := false, matchHeaders := false, raw := true, verbose := false }

/-- The matcher for an out flag with pattern foo, compiled as a regular
expression; the pattern is a plain literal, so regexec accepts exactly the
lines containing it. -/
def outFoo : Matcher :=
  { type := MatchType.Out, pat := "foo", pred := litRegex "foo" }

/-- The matcher for an in flag with pattern bar (plain literal regex). -/
def inBar : Matcher :=
  { type := MatchType.In, pat := "bar", pred := litRegex "bar" }

/-- The matcher for an in flag with pattern foo (plain literal regex). -/
def inFoo : Matcher :=
  { type := MatchType.In, pat := "foo", pred := litRegex "foo" }

/-- The matcher for an in flag with the anchored pattern caret-foo: POSIX
regexec anchors the caret at the very start of the string it is handed. -/
def caretFoo : Matcher :=
  { type := MatchType.In, pat := "^foo", pred := bolAnchor "foo" }

theorem fm_get (line : String) :
    ∀ (ms : List Matcher) (r : Nat), firstMatchIdx line ms = some r →
      ∃ mm, ms[r]? = some mm ∧ mm.pred line = true := by
  intro ms
  induction ms with
  | nil => intro r h; simp [firstMatchIdx] at h
  | cons m rest ih =>
    intro r h
    by_cases hp : m.pred line
    · simp [firstMatchIdx, hp] at h
      exact h ▸ ⟨m, by simp, hp⟩
    · simp [firstMatchIdx, hp] at h
      obtain ⟨r0, h0, hr⟩ := h
      obtain ⟨mm, hget, hpred⟩ := ih r0 h0
      exact ⟨mm, by simpa [← hr] using hget, hpred⟩

theorem fm_le (line : String) :
    ∀ (ms : List Matcher) (m0 : Nat) (mm : Matcher), ms[m0]? = some mm →
      mm.pred line = true → ∃ r, firstMatchIdx line ms = some r ∧ r ≤ m0 := by
  intro ms
  induction ms with
  | nil => intro m0 mm h; simp at h
  | cons m rest ih =>
    intro m0 mm hget hpred
    by_cases hp : m.pred line
    · exact ⟨0, by simp [firstMatchIdx, hp], Nat.zero_le _⟩
    · cases m0 with
      | zero =>
        simp at hget
        exact absurd (hget ▸ hpred) (by simpa using hp)
      | succ m1 =>
        simp at hget
        obtain ⟨r0, h0, hr⟩ := ih m1 mm hget hpred
        exact ⟨r0 + 1, by simp [firstMatchIdx, hp, h0], Nat.succ_le_succ hr⟩

theorem fm_none_of_all (line : String) :
    ∀ (ms : List Matcher), (∀ mm ∈ ms, mm.pred line = false) →
      firstMatchIdx line ms = none := by
  intro ms
  induction ms with
  | nil => intro _; rfl
  | cons m rest ih =>
    intro h
    have hm : m.pred line = false := h m (List.mem_cons_self m rest)
    simp [firstMatchIdx, hm, ih fun mm hmm => h mm (List.mem_cons_of_mem m hmm)]

theorem scanLine_fst (line : String) :
    ∀ (ms : List Matcher) (i mi : Nat) (h : Bool),
      (scanLine line ms i mi h).1 =
        (match firstMatchIdx line ms with
         | some r => if i + r < mi then i + r else mi
         | none => mi) := by
  intro ms
  induction ms with
  | nil => intro i mi h; simp [scanLine, firstMatchIdx]
  | cons m rest ih =>
    intro i mi h
    by_cases hlt : i < mi
    · by_cases hp : m.pred line
      · simp [scanLine, hlt, hp, firstMatchIdx]
      · have hp2 : ¬ (m.pred line = true) := by simp [hp]
        simp only [scanLine, if_pos hlt, if_neg hp2]
        rw [ih]
        simp only [firstMatchIdx, if_neg hp2]
        cases hfm : firstMatchIdx line rest with
        | none => simp
        | some r0 => simp [hfm, Nat.add_assoc, Nat.add_comm 1 r0]
    · have hge : mi ≤ i := Nat.le_of_not_lt hlt
      simp only [scanLine, if_neg hlt]
      cases hfm : firstMatchIdx line (m :: rest) with
      | none => rfl
      | some r =>
        have : ¬ i + r < mi := by omega
        simp [this]

theorem scanLine_snd_true (line : String) :
    ∀ (ms : List Matcher) (i mi : Nat),
      (scanLine line ms i mi true).2 = true := by
  intro ms
  induction ms with
  | nil => intro i mi; rfl
  | cons m rest ih =>
    intro i mi
    by_cases hlt : i < mi
    · by_cases hp : m.pred line
      · simp [scanLine, hlt, hp]
      · simpa [scanLine, hlt, hp] using ih (i + 1) mi
    · simp [scanLine, hlt]

theorem scanLine_snd_none (line : String) :
    ∀ (ms : List Matcher) (i mi : Nat) (h : Bool),
      firstMatchIdx line ms = none → i + ms.length ≤ mi →
      (scanLine line ms i mi h).2 =
        (h || ms.any (fun m => m.type == MatchType.In)) := by
  intro ms
  induction ms with
  | nil => intro i mi h _ _; simp [scanLine]
  | cons m rest ih =>
    intro i mi h hfm hlen
    have hp : m.pred line = false := by
      by_contra hc
      simp [firstMatchIdx, eq_true_of_ne_false hc] at hfm
    have hrest : firstMatchIdx line rest = none := by
      cases hr : firstMatchIdx line rest with
      | none => rfl
      | some r0 => simp [firstMatchIdx, hp, hr] at hfm
    have hlt : i < mi := by simp at hlen; omega
    have hlen2 : i + 1 + rest.length ≤ mi := by simp at hlen; omega
    have hp2 : ¬ (m.pred line = true) := by simp [hp]
    simp only [scanLine, if_pos hlt, if_neg hp2]
    rw [ih (i + 1) mi (h || (m.type == MatchType.In)) hrest hlen2]
    simp [Bool.or_assoc]

theorem lineMin_le (ms : List Matcher) (b : Nat) (bl : String × Bool) :
    lineMin ms b bl ≤ b := by
  by_cases he : bl.2 = true
  · simp only [lineMin, he, if_true]
    cases hfm : firstMatchIdx bl.1 ms with
    | none => exact le_refl b
    | some r => exact Nat.min_le_left b r
  · simp [lineMin, he]

theorem scanHunk_fst_aux (ms : List Matcher) :
    ∀ (lines : List (String × Bool)) (mi : Nat) (h : Bool),
      (lines.foldl (scanStep ms) (mi, h)).1 = lines.foldl (lineMin ms) mi := by
  intro lines
  induction lines with
  | nil => intro mi h; rfl
  | cons bl rest ih =>
    intro mi h
    simp only [List.foldl_cons]
    by_cases he : bl.2 = true
    · have hstep : scanStep ms (mi, h) bl = scanLine bl.1 ms 0 mi h := by
        simp [scanStep, he]
      rw [hstep,
        show scanLine bl.1 ms 0 mi h =
          ((scanLine bl.1 ms 0 mi h).1, (scanLine bl.1 ms 0 mi h).2) from rfl, ih]
      have harg : (scanLine bl.1 ms 0 mi h).1 = lineMin ms mi bl := by
        rw [scanLine_fst]
        simp only [lineMin, he, if_true, Nat.zero_add]
        cases hfm : firstMatchIdx bl.1 ms with
        | none => rfl
        | some r =>
          show (if r < mi then r else mi) = min mi r
          rcases Nat.lt_or_ge r mi with hlt | hge
          · rw [if_pos hlt, Nat.min_eq_right (Nat.le_of_lt hlt)]
          · rw [if_neg (Nat.not_lt.mpr hge), Nat.min_eq_left hge]
      rw [harg]
    · have hstep : scanStep ms (mi, h) bl = (mi, h) := by simp [scanStep, he]
      have harg : lineMin ms mi bl = mi := by simp [lineMin, he]
      rw [hstep, ih, harg]

theorem scanHunk_fst (lines : List (String × Bool)) (ms : List Matcher) :
    (scanHunk lines ms).1 = hunkMin lines ms :=
  scanHunk_fst_aux ms lines ms.length false

theorem foldMin_le_init (ms : List Matcher) :
    ∀ (lines : List (String × Bool)) (b : Nat), lines.foldl (lineMin ms) b ≤ b := by
  intro lines
  induction lines with
  | nil => intro b; exact le_refl b
  | cons bl rest ih =>
    intro b
    exact le_trans (ih (lineMin ms b bl)) (lineMin_le ms b bl)

theorem foldMin_cases (ms : List Matcher) :
    ∀ (lines : List (String × Bool)) (b : Nat),
      lines.foldl (lineMin ms) b = b ∨
        ∃ bl ∈ lines, bl.2 = true ∧
          firstMatchIdx bl.1 ms = some (lines.foldl (lineMin ms) b) := by
  intro lines
  induction lines with
  | nil => intro b; exact Or.inl rfl
  | cons bl rest ih =>
    intro b
    simp only [List.foldl_cons]
    rcases ih (lineMin ms b bl) with hsame | ⟨bl2, hmem, he, hfm⟩
    · rw [hsame]
      by_cases he : bl.2 = true
      · cases hfm : firstMatchIdx bl.1 ms with
        | none => exact Or.inl (by simp [lineMin, he, hfm])
        | some r =>
          rcases Nat.le_total b r with hle | hle
          · exact Or.inl (by simp [lineMin, he, hfm, Nat.min_eq_left hle])
          · refine Or.inr ⟨bl, List.mem_cons_self bl rest, he, ?_⟩
            simp [lineMin, he, hfm, Nat.min_eq_right hle]
      · exact Or.inl (by simp [lineMin, he])
    · exact Or.inr ⟨bl2, List.mem_cons_of_mem bl hmem, he, hfm⟩

theorem foldMin_le_match (ms : List Matcher) :
    ∀ (lines : List (String × Bool)) (b : Nat) (bl : String × Bool),
      bl ∈ lines → bl.2 = true → ∀ r, firstMatchIdx bl.1 ms = some r →
        lines.foldl (lineMin ms) b ≤ r := by
  intro lines
  induction lines with
  | nil => intro b bl hmem; exact absurd hmem (List.not_mem_nil bl)
  | cons bl0 rest ih =>
    intro b bl hmem he r hfm
    simp only [List.foldl_cons]
    rcases List.mem_cons.mp hmem with heq | hmem2
    · subst heq
      refine le_trans (foldMin_le_init ms rest (lineMin ms b bl)) ?_
      simp [lineMin, he, hfm, Nat.min_le_right]
    · exact ih (lineMin ms b bl0) bl hmem2 he r hfm

theorem hunkKept_of_min (lines : List (String × Bool)) (ms : List Matcher)
    (m0 : Nat) (mm : Matcher) (hm : hunkMin lines ms = m0) (hget : ms[m0]? = some mm) :
    hunkKept lines ms = !(mm.type == MatchType.Out) := by
  have hlt : m0 < ms.length := by
    rcases List.getElem?_eq_some.mp hget with ⟨hl, _⟩
    exact hl
  have hfst : (scanHunk lines ms).1 = m0 := by rw [scanHunk_fst, hm]
  have hne0 : (m0 == ms.length) = false := by simp [Nat.ne_of_lt hlt]
  simp only [hunkKept, hfst, hne0, hget, Bool.and_false]
  cases htype : mm.type == MatchType.Out <;> simp [htype]

theorem scanHunk_nomatch (ms : List Matcher) :
    ∀ (lines : List (String × Bool)) (h : Bool),
      (∀ bl ∈ lines, bl.2 = true → firstMatchIdx bl.1 ms = none) →
      lines.foldl (scanStep ms) (ms.length, h) =
        (ms.length,
          h || (lines.any (fun bl => bl.2) && ms.any (fun m => m.type == MatchType.In))) := by
  intro lines
  induction lines with
  | nil => intro h _; simp
  | cons bl rest ih =>
    intro h hall
    simp only [List.foldl_cons]
    by_cases he : bl.2 = true
    · have hfm : firstMatchIdx bl.1 ms = none := hall bl (List.mem_cons_self bl rest) he
      have hstep : scanStep ms (ms.length, h) bl =
          (ms.length, h || ms.any (fun m => m.type == MatchType.In)) := by
        have h1 : (scanLine bl.1 ms 0 ms.length h).1 = ms.length := by
          rw [scanLine_fst]; simp [hfm]
        have h2 : (scanLine bl.1 ms 0 ms.length h).2 =
            (h || ms.any (fun m => m.type == MatchType.In)) :=
          scanLine_snd_none bl.1 ms 0 ms.length h hfm (by simp)
        simp [scanStep, he]
        rw [show scanLine bl.1 ms 0 ms.length h =
          ((scanLine bl.1 ms 0 ms.length h).1, (scanLine bl.1 ms 0 ms.length h).2) from rfl,
          h1, h2]
      rw [hstep, ih _ fun bl2 hmem he2 => hall bl2 (List.mem_cons_of_mem bl hmem) he2]
      simp only [List.any_cons, he, Bool.true_or]
      cases hA : ms.any (fun m => m.type == MatchType.In) <;>
        cases rest.any (fun bl => bl.2) <;> cases h <;> simp
    · have hstep : scanStep ms (ms.length, h) bl = (ms.length, h) := by simp [scanStep, he]
      rw [hstep, ih _ fun bl2 hmem he2 => hall bl2 (List.mem_cons_of_mem bl hmem) he2]
      simp only [List.any_cons]
      have he2 : bl.2 = false := by simpa using he
      rw [he2]
      simp

theorem hunkKept_nomatch (lines : List (String × Bool)) (ms : List Matcher)
    (h : ∀ bl ∈ lines, bl.2 = true → ∀ mm ∈ ms, mm.pred bl.1 = false) :
    hunkKept lines ms =
      !(lines.any (fun bl => bl.2) && ms.any (fun m => m.type == MatchType.In)) := by
  have hall : ∀ bl ∈ lines, bl.2 = true → firstMatchIdx bl.1 ms = none :=
    fun bl hmem he => fm_none_of_all bl.1 ms (h bl hmem he)
  have hsc : scanHunk lines ms =
      (ms.length, lines.any (fun bl => bl.2) && ms.any (fun m => m.type == MatchType.In)) := by
    unfold scanHunk
    rw [scanHunk_nomatch ms lines false hall]
    simp
  have hnone : ms[ms.length]? = none := by simp
  simp only [hunkKept, hsc, hnone]
  cases lines.any (fun bl => bl.2) && ms.any (fun m => m.type == MatchType.In) <;> simp

/-- C1: counterexample. On the hunk with eligible lines +bar then +foo and
the matcher list (out foo, in bar), the first line/matcher pair that matches
in scan order is (+bar, in bar), an In matcher at index 1, so the claim says
the hunk is kept and scanning stops there; processHunk instead keeps
scanning, the later line +foo lowers the selected index to the Out matcher
at index 0, and the hunk is discarded. -/
theorem C1_counterexample :
    specFirstDecision [("+bar\n", true), ("+foo\n", true)] [outFoo, inBar] = some 1 ∧
    (inBar.type == MatchType.In) = true ∧
    hunkKept [("+bar\n", true), ("+foo\n", true)] [outFoo, inBar] = false ∧
    processHunk [("+bar\n", true), ("+foo\n", true)] [outFoo, inBar] = [] :=
  ⟨by decide, by decide, by decide, by decide⟩

/-- C1 (amended): over all eligible lines of the hunk, the lowest-indexed
matcher that matches any of them decides the outcome: scanning lines in
order can only lower the selected matcher index, never raise it, and the
polarity of that minimal matcher determines keep (In) versus discard (Out). -/
theorem C1_lowest_matcher_decides (lines : List (String × Bool)) (ms : List Matcher)
    (m0 : Nat) (mm : Matcher) (hget : ms[m0]? = some mm)
    (hmatch : ∃ bl ∈ lines, bl.2 = true ∧ mm.pred bl.1 = true)
    (hmin : ∀ m mm2, ms[m]? = some mm2 →
      (∃ bl ∈ lines, bl.2 = true ∧ mm2.pred bl.1 = true) → m0 ≤ m) :
    hunkKept lines ms = (mm.type == MatchType.In) := by
  obtain ⟨bl, hmem, he, hpred⟩ := hmatch
  obtain ⟨r, hfm, hr⟩ := fm_le bl.1 ms m0 mm hget hpred
  have hL_le : hunkMin lines ms ≤ m0 :=
    le_trans (foldMin_le_match ms lines ms.length bl hmem he r hfm) hr
  obtain ⟨hlt, -⟩ := List.getElem?_eq_some.mp hget
  have hLlt : hunkMin lines ms < ms.length := lt_of_le_of_lt hL_le hlt
  rcases foldMin_cases ms lines ms.length with hsame | ⟨bl2, hmem2, he2, hfm2⟩
  · exact absurd hLlt (by unfold hunkMin; rw [hsame]; exact lt_irrefl _)
  · obtain ⟨mmL, hgetL, hpredL⟩ := fm_get bl2.1 ms _ hfm2
    have hge : m0 ≤ hunkMin lines ms := hmin _ mmL hgetL ⟨bl2, hmem2, he2, hpredL⟩
    have heq : hunkMin lines ms = m0 := le_antisymm hL_le hge
    rw [hunkKept_of_min lines ms m0 mm heq hget]
    cases mm.type <;> rfl

/-- C1 witness: the amended rule applied at a concrete hunk where the
minimal matching matcher is the In matcher at index 0, so the hunk is kept. -/
theorem C1_witness :
    hunkKept [("+foo\n", true)] [inFoo, outFoo] = true := by
  have h := C1_lowest_matcher_decides [("+foo\n", true)] [inFoo, outFoo] 0 inFoo
    (by simp) ⟨("+foo\n", true), by decide, by decide, by decide⟩
    (fun m _ _ _ => Nat.zero_le m)
  simpa using h

/-- C2: the raw matcher calls strstr(mPattern, line), with the pattern as
the haystack, so it tests whether the whole buffered line occurs inside the
pattern; a changed line that plainly contains foo.bar therefore does not
match under raw mode and the hunk carrying it is discarded, although the
line does contain the pattern as a contiguous substring and also under raw
mode fooXbar is (as the claim says) no match. -/
theorem C2_raw_match_swapped :
    rawMatch "foo.bar" "+x foo.bar y\n" = false ∧
    occursIn "foo.bar".toList "+x foo.bar y\n".toList = true ∧
    rawMatch "foo.bar" "+fooXbar\n" = false ∧
    (processFile cfgRaw [rawMatcher MatchType.In "foo.bar"]
      ["--- a\n", "+x foo.bar y\n"]).out = [] :=
  ⟨by decide, by decide, by decide, by decide⟩

/-- C3: counterexample. A hunk whose only buffered line is an ineligible
header has no eligible line matching any matcher, and an In matcher is
configured, so the claim says the hunk is discarded; processHunk keeps it
and prints the line, because hasIns is only ever set while scanning an
eligible line and this hunk has none. -/
theorem C3_counterexample :
    ([("--- a\n", false)].all (fun bl => !bl.2)) = true ∧
    (([inFoo] : List Matcher).any (fun m => m.type == MatchType.In)) = true ∧
    hunkKept [("--- a\n", false)] [inFoo] = true ∧
    processHunk [("--- a\n", false)] [inFoo] = ["--- a\n"] :=
  ⟨by decide, by decide, by decide, by decide⟩

/-- C3 (amended): for a hunk in which no eligible line matches any
configured matcher, the hunk is discarded exactly when an In matcher is
configured and the hunk has at least one eligible line; with only Out
matchers, or with no eligible lines at all, it is kept. -/
theorem C3_no_match_keep_rule (lines : List (String × Bool)) (ms : List Matcher)
    (h : ∀ bl ∈ lines, bl.2 = true → ∀ mm ∈ ms, mm.pred bl.1 = false) :
    hunkKept lines ms =
      !(lines.any (fun bl => bl.2) && ms.any (fun m => m.type == MatchType.In)) :=
  hunkKept_nomatch lines ms h

/-- C3 witness: a hunk with an eligible line matching nothing, under a lone
Out matcher, is kept. -/
theorem C3_witness :
    hunkKept [("+zzz\n", true)] [outFoo] = true := by
  have h := C3_no_match_keep_rule [("+zzz\n", true)] [outFoo] (by decide)
  simpa using h

theorem scanLineV_proj (line : String) (vb : Bool) :
    ∀ (ms : List Matcher) (i mi : Nat) (h : Bool),
      (scanLineV line vb ms i mi h).1 = (scanLine line ms i mi h).1 ∧
      (scanLineV line vb ms i mi h).2.1 = (scanLine line ms i mi h).2 := by
  intro ms
  induction ms with
  | nil => intro i mi h; exact ⟨rfl, rfl⟩
  | cons m rest ih =>
    intro i mi h
    by_cases hlt : i < mi
    · by_cases hp : m.pred line = true
      · simp [scanLineV, scanLine, hlt, hp]
      · simpa [scanLineV, scanLine, hlt, hp] using ih (i + 1) mi (h || (m.type == MatchType.In))
    · simp [scanLineV, scanLine, hlt]

theorem scanHunkV_proj (ms : List Matcher) (vb : Bool) :
    ∀ (lines : List (String × Bool)) (mi : Nat) (h : Bool) (log : List String),
      (lines.foldl (scanStepV ms vb) (mi, h, log)).1 =
        (lines.foldl (scanStep ms) (mi, h)).1 ∧
      (lines.foldl (scanStepV ms vb) (mi, h, log)).2.1 =
        (lines.foldl (scanStep ms) (mi, h)).2 := by
  intro lines
  induction lines with
  | nil => intro mi h log; exact ⟨rfl, rfl⟩
  | cons bl rest ih =>
    intro mi h log
    by_cases he : bl.2 = true
    · obtain ⟨h1, h2⟩ := scanLineV_proj bl.1 vb ms 0 mi h
      simp only [List.foldl_cons, scanStepV, scanStep, he, if_true]
      rw [h1, h2]
      have hpair : scanLine bl.1 ms 0 mi h =
          ((scanLine bl.1 ms 0 mi h).1, (scanLine bl.1 ms 0 mi h).2) := rfl
      rw [hpair]
      exact ih _ _ _
    · simp only [List.foldl_cons, scanStepV, scanStep, he]
      exact ih _ _ _

theorem processHunkV_fst (lines : List (String × Bool)) (ms : List Matcher) (vb : Bool) :
    (processHunkV lines ms vb).1 = processHunk lines ms := by
  obtain ⟨hs1, hs2⟩ := scanHunkV_proj ms vb lines ms.length false []
  by_cases hA : ((scanHunk lines ms).2 && ((scanHunk lines ms).1 == ms.length)) = true
  · simp [processHunkV, processHunk, hunkKept, scanHunkV, scanHunk, hs1, hs2, hA] at *
    simp [hA]
  · by_cases hB : (match ms[(scanHunk lines ms).1]? with
        | some mm => mm.type == MatchType.Out
        | none => false) = true
    · simp only [processHunkV, processHunk, hunkKept, scanHunkV, scanHunk] at *
      rw [hs1, hs2]
      simp [hA, hB]
    · simp only [processHunkV, processHunk, hunkKept, scanHunkV, scanHunk] at *
      rw [hs1, hs2]
      simp [hA, hB]

/-- The one-line effect of segStep in closed form: a flush happens exactly
when a trigger line arrives with seenHunkStart set, the line is appended
with its recomputed eligibility flag, and seenHunkStart evolves by updSeen. -/
theorem segStep_spec (cfg : Config) (ms : List Matcher) (st : SegState) (line : String) :
    segStep cfg ms st line =
      { pending := (if st.seenHunkStart && isTrigger line then [] else st.pending)
          ++ [(line, eligOf cfg line)],
        seenHunkStart := updSeen st.seenHunkStart line,
        hunks := st.hunks ++ (if st.seenHunkStart && isTrigger line then [st.pending] else []),
        out := st.out ++ (if st.seenHunkStart && isTrigger line
          then processHunk st.pending ms else []),
        err := st.err ++ (if st.seenHunkStart && isTrigger line
          then (processHunkV st.pending ms cfg.verbose).2 else []) } := by
  have hfst := processHunkV_fst st.pending ms cfg.verbose
  by_cases hb : isHunkStart line = true
  · by_cases hs : st.seenHunkStart = true
    · simp [segStep, flushPending, isTrigger, updSeen, eligOf, hb, hs, hfst]
    · simp [segStep, flushPending, isTrigger, updSeen, eligOf, hb, hs]
  · by_cases hp : isPlusHeader line = true
    · have hot : isOther line = false := by simp [isOther, hp]
      simp [segStep, isTrigger, updSeen, eligOf, hb, hp, hot]
    · by_cases ha : isRangeHeader line = true
      · have hot : isOther line = false := by simp [isOther, ha]
        simp [segStep, isTrigger, updSeen, eligOf, hb, hp, ha, hot]
      · by_cases hm : markerChar (headChar line) = true
        · have hot : isOther line = false := by simp [isOther, hm]
          simp [segStep, isTrigger, updSeen, eligOf, hb, hp, ha, hm, hot]
        · by_cases hsp : (headChar line == ' ') = true
          · have hot : isOther line = false := by simp [isOther, hsp]
            simp [segStep, isTrigger, updSeen, eligOf, hb, hp, ha, hm, hsp, hot]
          · have hot : isOther line = true := by simp [isOther, hb, hp, ha, hm, hsp]
            by_cases hs : st.seenHunkStart = true
            · simp [segStep, flushPending, isTrigger, updSeen, eligOf, hb, hp, ha, hm, hsp,
                hot, hs, hfst]
            · simp [segStep, flushPending, isTrigger, updSeen, eligOf, hb, hp, ha, hm, hsp,
                hot, hs]

theorem segStep_out_inv (cfg : Config) (ms : List Matcher) (st : SegState) (line : String)
    (h : st.out = (st.hunks.map (fun hk => processHunk hk ms)).flatten) :
    (segStep cfg ms st line).out =
      ((segStep cfg ms st line).hunks.map (fun hk => processHunk hk ms)).flatten := by
  rw [segStep_spec]
  by_cases hf : (st.seenHunkStart && isTrigger line) = true
  · simp [hf, h]
  · simp [hf, h]

theorem foldl_out_inv (cfg : Config) (ms : List Matcher) :
    ∀ (input : List String) (st : SegState),
      st.out = (st.hunks.map (fun hk => processHunk hk ms)).flatten →
      (input.foldl (segStep cfg ms) st).out =
        ((input.foldl (segStep cfg ms) st).hunks.map (fun hk => processHunk hk ms)).flatten := by
  intro input
  induction input with
  | nil => intro st h; exact h
  | cons line rest ih =>
    intro st h
    simp only [List.foldl_cons]
    exact ih _ (segStep_out_inv cfg ms st line h)

theorem processFile_out_join (cfg : Config) (ms : List Matcher) (input : List String) :
    (processFile cfg ms input).out =
      ((processFile cfg ms input).hunks.map (fun hk => processHunk hk ms)).flatten := by
  have hfold := foldl_out_inv cfg ms input ⟨[], false, [], [], []⟩ (by simp)
  unfold processFile
  simp [flushPending, hfold, processHunkV_fst]

/-- C4: emission is all-or-nothing: processHunk writes either every buffered
line text, in original order and unmodified, or nothing at all; and the
stream output is exactly the concatenation of the per-hunk outputs, so no
flushed hunk is ever emitted partially. -/
theorem C4_all_or_nothing :
    (∀ (lines : List (String × Bool)) (ms : List Matcher),
      processHunk lines ms = lines.map Prod.fst ∨ processHunk lines ms = []) ∧
    (∀ (cfg : Config) (ms : List Matcher) (input : List String),
      (processFile cfg ms input).out =
        ((processFile cfg ms input).hunks.map (fun hk => processHunk hk ms)).flatten) := by
  constructor
  · intro lines ms
    by_cases hk : hunkKept lines ms = true
    · exact Or.inl (by simp [processHunk, hk])
    · exact Or.inr (by simp [processHunk, hk])
  · exact processFile_out_join

/-- C5: for a line that is not a recognized boundary or header line, the
segmenter buffers it with eligibility read off its first character: a change
marker makes it eligible, a space makes it eligible iff matchContext is set;
nothing else about the state changes. -/
theorem C5_first_char_eligibility (cfg : Config) (ms : List Matcher) (st : SegState)
    (line : String)
    (hb : isHunkStart line = false) (hp : isPlusHeader line = false)
    (ha : isRangeHeader line = false) :
    (markerChar (headChar line) = true →
      segStep cfg ms st line = { st with pending := st.pending ++ [(line, true)] }) ∧
    (headChar line = ' ' →
      segStep cfg ms st line =
        { st with pending := st.pending ++ [(line, cfg.matchContext)] }) := by
  constructor
  · intro hm
    simp [segStep, hb, hp, ha, hm]
  · intro hsp
    have hm : markerChar ' ' = false := by decide
    simp [segStep, hb, hp, ha, hm, hsp]

/-- C5 witness: a changed line is buffered eligible, a context line is
buffered with the matchContext flag (clear here). -/
theorem C5_witness :
    segStep cfgPlain [] ⟨[], false, [], [], []⟩ "+foo\n" =
      { pending := [("+foo\n", true)], seenHunkStart := false,
        hunks := [], out := [], err := [] } ∧
    segStep cfgPlain [] ⟨[], false, [], [], []⟩ " ctx\n" =
      { pending := [(" ctx\n", false)], seenHunkStart := false,
        hunks := [], out := [], err := [] } := by
  have h1 := (C5_first_char_eligibility cfgPlain [] ⟨[], false, [], [], []⟩ "+foo\n"
    (by decide) (by decide) (by decide)).1 (by decide)
  have h2 := (C5_first_char_eligibility cfgPlain [] ⟨[], false, [], [], []⟩ " ctx\n"
    (by decide) (by decide) (by decide)).2 (by decide)
  exact ⟨h1, h2⟩

theorem buildMatchers_raw_ok (rx : String → String → Bool) (ok : String → Bool) :
    ∀ pats : List (MatchType × String),
      ∃ ms, buildMatchers rx ok true pats = Except.ok ms := by
  intro pats
  induction pats with
  | nil => exact ⟨[], rfl⟩
  | cons tp rest ih =>
    obtain ⟨ms, hms⟩ := ih
    obtain ⟨t, p⟩ := tp
    exact ⟨rawMatcher t p :: ms, by simp [buildMatchers, hms, Except.map]⟩

theorem buildMatchers_bad (rx : String → String → Bool) (ok : String → Bool) :
    ∀ pats : List (MatchType × String), (∃ tp ∈ pats, ok tp.2 = false) →
      ∃ msg, buildMatchers rx ok false pats = Except.error (3, msg) := by
  intro pats
  induction pats with
  | nil => rintro ⟨tp, h, -⟩; exact absurd h (List.not_mem_nil tp)
  | cons tp0 rest ih =>
    rintro ⟨tp, hmem, hbad⟩
    obtain ⟨t, p⟩ := tp0
    by_cases hok : ok p = true
    · have hrest : ∃ tp2 ∈ rest, ok tp2.2 = false := by
        rcases List.mem_cons.mp hmem with heq | hm2
        · exfalso
          rw [heq] at hbad
          rw [hbad] at hok
          exact Bool.false_ne_true hok
        · exact ⟨tp, hm2, hbad⟩
      obtain ⟨msg, hmsg⟩ := ih hrest
      exact ⟨msg, by simp [buildMatchers, hok, hmsg, Except.map]⟩
    · exact ⟨"Invalid regexp " ++ p ++ "\n", by simp [buildMatchers, hok]⟩

/-- C7: when raw mode is off and some supplied pattern fails regcomp, the
run exits with code 3 and writes nothing to stdout, independently of the
input (no input is consumed: the matchers are built before processFile
runs); in raw mode matcher construction always succeeds, so that exit is
impossible. -/
theorem C7_bad_pattern_exit3 (rx : String → String → Bool) (ok : String → Bool)
    (cfg : Config) (pats : List (MatchType × String)) (input : List String) :
    (cfg.raw = false → (∃ tp ∈ pats, ok tp.2 = false) →
      runHunk rx ok cfg pats input = (3, [])) ∧
    (cfg.raw = true → ∃ ms, buildMatchers rx ok cfg.raw pats = Except.ok ms) := by
  constructor
  · intro hraw hbad
    obtain ⟨msg, hmsg⟩ := buildMatchers_bad rx ok pats hbad
    simp [runHunk, hraw, hmsg]
  · intro hraw
    rw [hraw]
    exact buildMatchers_raw_ok rx ok pats

/-- C7 witness: a failing pattern yields exit code 3 and empty stdout when
raw mode is off, and matcher construction succeeds in raw mode. -/
theorem C7_witness :
    runHunk litRegex (fun p => !(p == "(")) cfgPlain
      [(MatchType.In, "(")] ["--- a\n", "+foo\n"] = (3, []) ∧
    (∃ ms, buildMatchers litRegex (fun p => !(p == "(")) true
      [(MatchType.In, "(")] = Except.ok ms) := by
  refine ⟨(C7_bad_pattern_exit3 litRegex (fun p => !(p == "(")) cfgPlain
      [(MatchType.In, "(")] ["--- a\n", "+foo\n"]).1 rfl
      ⟨(MatchType.In, "("), List.mem_singleton.mpr rfl, by decide⟩, ?_⟩
  exact (C7_bad_pattern_exit3 litRegex (fun p => !(p == "(")) cfgRaw
    [(MatchType.In, "(")] []).2 rfl

theorem updSeen_trig (s : Bool) (line : String) (h : isTrigger line = true) :
    updSeen s line = isHunkStart line := by
  by_cases hb : isHunkStart line = true
  · simp [updSeen, hb]
  · have ho : isOther line = true := by
      simp [isTrigger, hb] at h
      exact h
    simp [updSeen, hb, ho]

theorem foldl_seg_corr (cfg : Config) (ms : List Matcher) :
    ∀ (input : List String) (st : SegState) (pT : List String),
      st.pending = attachL cfg pT →
      (input.foldl (segStep cfg ms) st).pending =
          attachL cfg (pendAfter st.seenHunkStart pT input) ∧
      (input.foldl (segStep cfg ms) st).seenHunkStart =
          seenAfter st.seenHunkStart input ∧
      (input.foldl (segStep cfg ms) st).hunks =
          st.hunks ++ (spill st.seenHunkStart pT input).map (attachL cfg) := by
  intro input
  induction input with
  | nil =>
    intro st pT hpend
    exact ⟨hpend, rfl, by simp [spill, pendAfter, seenAfter]⟩
  | cons line rest ih =>
    intro st pT hpend
    simp only [List.foldl_cons]
    have hstep := segStep_spec cfg ms st line
    by_cases hf : (st.seenHunkStart && isTrigger line) = true
    · have hp2 : (segStep cfg ms st line).pending = attachL cfg [line] := by
        rw [hstep]; simp [hf, attachL]
      have hs2 : (segStep cfg ms st line).seenHunkStart = updSeen st.seenHunkStart line := by
        rw [hstep]
      have hh2 : (segStep cfg ms st line).hunks = st.hunks ++ [attachL cfg pT] := by
        rw [hstep]; simp [hf, hpend]
      obtain ⟨q1, q2, q3⟩ := ih (segStep cfg ms st line) [line] hp2
      refine ⟨?_, ?_, ?_⟩
      · rw [q1, hs2]
        simp [pendAfter, hf]
      · rw [q2, hs2]
        simp [seenAfter]
      · rw [q3, hh2, hs2]
        simp [spill, hf]
    · have hp2 : (segStep cfg ms st line).pending = attachL cfg (pT ++ [line]) := by
        rw [hstep]; simp [hf, hpend, attachL]
      have hs2 : (segStep cfg ms st line).seenHunkStart = updSeen st.seenHunkStart line := by
        rw [hstep]
      have hh2 : (segStep cfg ms st line).hunks = st.hunks := by
        rw [hstep]; simp [hf]
      obtain ⟨q1, q2, q3⟩ := ih (segStep cfg ms st line) (pT ++ [line]) hp2
      refine ⟨?_, ?_, ?_⟩
      · rw [q1, hs2]
        simp [pendAfter, hf]
      · rw [q2, hs2]
        simp [seenAfter]
      · rw [q3, hh2, hs2]
        simp [spill, hf]

theorem processFile_hunks (cfg : Config) (ms : List Matcher) (input : List String) :
    (processFile cfg ms input).hunks = (chunksT false [] input).map (attachL cfg) := by
  obtain ⟨q1, q2, q3⟩ :=
    foldl_seg_corr cfg ms input ⟨[], false, [], [], []⟩ [] (by simp [attachL])
  unfold processFile chunksT
  simp [flushPending, q1, q3]

theorem processHunk_attach (cfg : Config) (ms : List Matcher) (h : List String) :
    processHunk (attachL cfg h) ms = if keptT cfg ms h then h else [] := by
  unfold processHunk keptT
  have hid : (Prod.fst ∘ fun l : String => (l, eligOf cfg l)) = id := funext fun l => rfl
  by_cases hk : hunkKept (attachL cfg h) ms = true
  · simp only [attachL] at hk
    simp [hk, attachL, List.map_map, hid]
  · simp only [attachL] at hk
    simp [hk, attachL, List.map_map]

theorem flatten_ite_filter (P : List String → Bool) :
    ∀ hs : List (List String),
      (hs.map (fun h => if P h then h else [])).flatten = (hs.filter P).flatten := by
  intro hs
  induction hs with
  | nil => rfl
  | cons h rest ih =>
    by_cases hp : P h = true
    · simp [hp, ih]
    · simp [hp, ih]

theorem processFile_out (cfg : Config) (ms : List Matcher) (input : List String) :
    (processFile cfg ms input).out =
      ((chunksT false [] input).filter (keptT cfg ms)).flatten := by
  rw [processFile_out_join, processFile_hunks, List.map_map]
  have hcomp : ((fun hk => processHunk hk ms) ∘ attachL cfg) =
      fun h => if keptT cfg ms h then h else [] :=
    funext fun h => processHunk_attach cfg ms h
  rw [hcomp, flatten_ite_filter]

theorem chunksT_flatten :
    ∀ (input : List String) (s : Bool) (p : List String),
      (chunksT s p input).flatten = p ++ input := by
  intro input
  induction input with
  | nil => intro s p; simp [chunksT, spill, pendAfter]
  | cons l rest ih =>
    intro s p
    by_cases hf : (s && isTrigger l) = true
    · have hsplit : chunksT s p (l :: rest) = p :: chunksT (updSeen s l) [l] rest := by
        simp [chunksT, spill, pendAfter, hf]
      rw [hsplit]
      simp [ih (updSeen s l) [l]]
    · have hsplit : chunksT s p (l :: rest) = chunksT (updSeen s l) (p ++ [l]) rest := by
        simp [chunksT, spill, pendAfter, hf]
      rw [hsplit, ih (updSeen s l) (p ++ [l])]
      simp

/-- C9: matchers see the raw buffered text. Every input line is buffered
verbatim, marker character and trailing newline included (the flattened
buffered texts reproduce the input exactly); consequently a regex anchored
as caret-foo never matches a changed line whose content starts with foo,
because the buffered text starts with the marker, although the stripped
content would match. -/
theorem C9_raw_line_verbatim (cfg : Config) (ms : List Matcher) (input : List String) :
    ((processFile cfg ms input).hunks.map (fun hk => hk.map Prod.fst)).flatten = input ∧
    hunkKept [("+foobar\n", true)] [caretFoo] = false ∧
    bolAnchor "foo" "+foobar\n" = false ∧
    bolAnchor "foo" "foobar\n" = true := by
  refine ⟨?_, by decide, by decide, by decide⟩
  rw [processFile_hunks, List.map_map]
  have hid : (Prod.fst ∘ fun l : String => (l, eligOf cfg l)) = id := funext fun l => rfl
  have hcomp : ((fun hk : List (String × Bool) => hk.map Prod.fst) ∘ attachL cfg) = id := by
    funext h
    simp [attachL, List.map_map, hid]
  rw [hcomp, List.map_id]
  simpa using chunksT_flatten input false []

/-- C10: the Verbose flag does not interfere with standard output: for every
configuration, matcher list and input, flipping the verbose flag leaves the
stdout lines and the flushed hunks (hence every keep/discard decision)
unchanged; the verbose diagnostics only ever accumulate in the stderr
component of the state. -/
theorem C10_verbose_noninterference (cfg : Config) (ms : List Matcher)
    (input : List String) (b : Bool) :
    (processFile { cfg with verbose := b } ms input).out =
      (processFile cfg ms input).out ∧
    (processFile { cfg with verbose := b } ms input).hunks =
      (processFile cfg ms input).hunks := by
  constructor
  · rw [processFile_out, processFile_out]
    rfl
  · rw [processFile_hunks, processFile_hunks]
    rfl

/-- C8: counterexample. On the input +foo then the boundary line, the
pre-boundary line is still pending when the first boundary arrives, no flush
happens, and the boundary line is appended as the second entry of the same
buffer: the single flushed hunk is [+foo, boundary], and no flushed hunk has
the boundary line as its first entry. -/
theorem C8_counterexample :
    (processFile cfgPlain [inFoo] ["+foo\n", "--- a\n"]).hunks =
      [[("+foo\n", true), ("--- a\n", false)]] ∧
    (∀ hk ∈ (processFile cfgPlain [inFoo] ["+foo\n", "--- a\n"]).hunks,
      hk.head? ≠ some ("--- a\n", false)) :=
  ⟨by decide, by decide⟩

/-- C8 (amended): when a boundary line arrives with seenHunkStart still
clear, nothing is flushed and the boundary line is appended to the current
pending buffer (which may already hold earlier non-boundary lines) with
eligibility matchHeaders, and seenHunkStart becomes set; moreover
seenHunkStart stays clear while no boundary line has been consumed. -/
theorem C8_first_boundary_no_flush (cfg : Config) (ms : List Matcher) :
    (∀ (st : SegState) (line : String), st.seenHunkStart = false →
      isHunkStart line = true →
      segStep cfg ms st line =
        { st with pending := st.pending ++ [(line, cfg.matchHeaders)],
                  seenHunkStart := true }) ∧
    (∀ (input : List String) (st : SegState), (∀ l ∈ input, isHunkStart l = false) →
      st.seenHunkStart = false →
      (input.foldl (segStep cfg ms) st).seenHunkStart = false) := by
  constructor
  · intro st line hs hb
    simp [segStep, hb, hs]
  · intro input
    induction input with
    | nil => intro st _ hs; exact hs
    | cons l rest ih =>
      intro st hall hs
      simp only [List.foldl_cons]
      apply ih
      · exact fun l2 h2 => hall l2 (List.mem_cons_of_mem l h2)
      · rw [segStep_spec]
        simp [updSeen, hall l (List.mem_cons_self l rest), hs]

/-- C8 witness: the amended rule at the concrete first boundary, appended
after a pending changed line with no flush. -/
theorem C8_witness :
    segStep cfgPlain [inFoo] ⟨[("+foo\n", true)], false, [], [], []⟩ "--- a\n" =
      { pending := [("+foo\n", true), ("--- a\n", false)], seenHunkStart := true,
        hunks := [], out := [], err := [] } := by
  have h := (C8_first_boundary_no_flush cfgPlain [inFoo]).1
    ⟨[("+foo\n", true)], false, [], [], []⟩ "--- a\n" rfl (by decide)
  exact h

theorem seenAfter_append :
    ∀ (xs ys : List String) (s : Bool),
      seenAfter s (xs ++ ys) = seenAfter (seenAfter s xs) ys := by
  intro xs
  induction xs with
  | nil => intro ys s; rfl
  | cons l rest ih => intro ys s; simp only [List.cons_append, seenAfter]; exact ih ys _

theorem quiet_append :
    ∀ (xs ys : List String) (s : Bool),
      quiet s (xs ++ ys) = (quiet s xs && quiet (seenAfter s xs) ys) := by
  intro xs
  induction xs with
  | nil => intro ys s; simp [quiet, seenAfter]
  | cons l rest ih =>
    intro ys s
    simp only [List.cons_append, quiet, seenAfter, List.append_eq]
    rw [ih ys (updSeen s l), Bool.and_assoc]

theorem quiet_feed :
    ∀ (xs : List String) (s : Bool) (p ys : List String), quiet s xs = true →
      spill s p (xs ++ ys) = spill (seenAfter s xs) (p ++ xs) ys ∧
      pendAfter s p (xs ++ ys) = pendAfter (seenAfter s xs) (p ++ xs) ys := by
  intro xs
  induction xs with
  | nil => intro s p ys _; simp [seenAfter]
  | cons l rest ih =>
    intro s p ys hq
    have hnf : (s && isTrigger l) = false := by
      simp only [quiet] at hq
      cases hv : (s && isTrigger l) with
      | false => rfl
      | true => rw [hv] at hq; simp at hq
    have hqr : quiet (updSeen s l) rest = true := by
      simp only [quiet, hnf] at hq
      simpa using hq
    obtain ⟨h1, h2⟩ := ih (updSeen s l) (p ++ [l]) ys hqr
    have hnf2 : ¬ (s && isTrigger l) = true := by simp [hnf]
    constructor
    · simp only [List.cons_append, spill, List.append_eq, if_neg hnf2]
      rw [h1]
      simp [seenAfter, List.append_assoc]
    · simp only [List.cons_append, pendAfter, List.append_eq, if_neg hnf2]
      rw [h2]
      simp [seenAfter, List.append_assoc]

theorem struct_invariant :
    ∀ (input p : List String) (s : Bool),
      quiet false p = true → seenAfter false p = s →
      (∀ hk ∈ spill s p input, quiet false hk = true ∧ seenAfter false hk = true) ∧
      quiet false (pendAfter s p input) = true ∧
      seenAfter false (pendAfter s p input) = seenAfter s input := by
  intro input
  induction input with
  | nil =>
    intro p s hq hs
    refine ⟨?_, by simpa [pendAfter] using hq, by simpa [pendAfter, seenAfter] using hs⟩
    intro hk hmem
    simp [spill] at hmem
  | cons l rest ih =>
    intro p s hq hs
    by_cases hf : (s && isTrigger l) = true
    · have hpair : s = true ∧ isTrigger l = true := by
        constructor
        · cases hv : s with
          | true => rfl
          | false => rw [hv] at hf; simp at hf
        · cases hv : isTrigger l with
          | true => rfl
          | false => rw [hv] at hf; simp at hf
      have hq1 : quiet false [l] = true := by simp [quiet]
      have hs1 : seenAfter false [l] = updSeen s l := by
        simp only [seenAfter]
        rw [updSeen_trig false l hpair.2, updSeen_trig s l hpair.2]
      obtain ⟨ha, hb, hc⟩ := ih [l] (updSeen s l) hq1 hs1
      refine ⟨?_, ?_, ?_⟩
      · intro hk hmem
        rw [show spill s p (l :: rest) = p :: spill (updSeen s l) [l] rest from
          by simp [spill, hf]] at hmem
        rcases List.mem_cons.mp hmem with heq | hm2
        · subst heq
          exact ⟨hq, by rw [hs, hpair.1]⟩
        · exact ha hk hm2
      · rw [show pendAfter s p (l :: rest) = pendAfter (updSeen s l) [l] rest from
          by simp [pendAfter, hf]]
        exact hb
      · rw [show pendAfter s p (l :: rest) = pendAfter (updSeen s l) [l] rest from
          by simp [pendAfter, hf], hc]
        simp [seenAfter]
    · have hq1 : quiet false (p ++ [l]) = true := by
        rw [quiet_append]
        simp only [hq, Bool.true_and, quiet, hs]
        simp [hf]
      have hs1 : seenAfter false (p ++ [l]) = updSeen s l := by
        rw [seenAfter_append]
        simp [seenAfter, hs]
      obtain ⟨ha, hb, hc⟩ := ih (p ++ [l]) (updSeen s l) hq1 hs1
      refine ⟨?_, ?_, ?_⟩
      · intro hk hmem
        rw [show spill s p (l :: rest) = spill (updSeen s l) (p ++ [l]) rest from
          by simp [spill, hf]] at hmem
        exact ha hk hmem
      · rw [show pendAfter s p (l :: rest) = pendAfter (updSeen s l) (p ++ [l]) rest from
          by simp [pendAfter, hf]]
        exact hb
      · rw [show pendAfter s p (l :: rest) = pendAfter (updSeen s l) (p ++ [l]) rest from
          by simp [pendAfter, hf], hc]
        simp [seenAfter]

theorem chunks_head_tail :
    ∀ (input p : List String) (s : Bool),
      (∃ r, (chunksT s p input).head? = some (p ++ r)) ∧
      (∀ hk ∈ (chunksT s p input).tail, ∃ l t, hk = l :: t ∧ isTrigger l = true) := by
  intro input
  induction input with
  | nil =>
    intro p s
    refine ⟨⟨[], by simp [chunksT, spill, pendAfter]⟩, ?_⟩
    intro hk hmem
    simp [chunksT, spill, pendAfter] at hmem
  | cons l rest ih =>
    intro p s
    by_cases hf : (s && isTrigger l) = true
    · have htrig : isTrigger l = true := by
        cases hv : isTrigger l with
        | true => rfl
        | false => rw [hv] at hf; simp at hf
      have hsplit : chunksT s p (l :: rest) = p :: chunksT (updSeen s l) [l] rest := by
        simp [chunksT, spill, pendAfter, hf]
      obtain ⟨⟨r1, hr1⟩, htail⟩ := ih [l] (updSeen s l)
      rw [hsplit]
      refine ⟨⟨[], by simp⟩, ?_⟩
      intro hk hmem
      simp only [List.tail_cons] at hmem
      obtain ⟨tl, htl⟩ : ∃ tl, chunksT (updSeen s l) [l] rest = ([l] ++ r1) :: tl := by
        cases hC : chunksT (updSeen s l) [l] rest with
        | nil => rw [hC] at hr1; simp at hr1
        | cons a tl =>
          rw [hC] at hr1
          simp only [List.head?_cons, Option.some.injEq] at hr1
          exact ⟨tl, by rw [hr1]⟩
      rw [htl] at hmem
      rcases List.mem_cons.mp hmem with heq | hm2
      · exact ⟨l, r1, by rw [heq]; rfl, htrig⟩
      · apply htail
        rw [htl]
        simpa using hm2
    · have hsplit : chunksT s p (l :: rest) = chunksT (updSeen s l) (p ++ [l]) rest := by
        simp [chunksT, spill, pendAfter, hf]
      obtain ⟨⟨r1, hr1⟩, htail⟩ := ih (p ++ [l]) (updSeen s l)
      rw [hsplit]
      exact ⟨⟨[l] ++ r1, by rw [hr1]; simp⟩, htail⟩

theorem mem_filter_tail {α : Type} (P : α → Bool) (l : List α) (x : α)
    (h : x ∈ (l.filter P).tail) : x ∈ l.tail := by
  cases l with
  | nil => simp at h
  | cons a t =>
    by_cases hp : P a = true
    · rw [List.filter_cons_of_pos hp] at h
      simp only [List.tail_cons] at h ⊢
      exact List.mem_of_mem_filter h
    · rw [List.filter_cons_of_neg (by simp [hp])] at h
      simp only [List.tail_cons]
      exact List.mem_of_mem_filter (List.mem_of_mem_tail h)

theorem mem_filter_dropLast {α : Type} (P : α → Bool) :
    ∀ (l : List α) (x : α), x ∈ (l.filter P).dropLast → x ∈ l.dropLast := by
  intro l
  induction l with
  | nil => intro x h; simp at h
  | cons a t ih =>
    intro x h
    have hsub : ∀ y : α, y ∈ t.dropLast → y ∈ (a :: t).dropLast := by
      intro y hy
      cases t with
      | nil => simp at hy
      | cons b u =>
        rw [List.dropLast_cons₂]
        exact List.mem_cons_of_mem a hy
    by_cases hp : P a = true
    · rw [List.filter_cons_of_pos hp] at h
      cases hft : List.filter P t with
      | nil => rw [hft] at h; simp at h
      | cons b u =>
        rw [hft, List.dropLast_cons₂] at h
        rcases List.mem_cons.mp h with heq | hm2
        · subst heq
          have htne : t ≠ [] := by
            intro hte
            rw [hte] at hft
            simp at hft
          cases t with
          | nil => exact absurd rfl htne
          | cons c v =>
            rw [List.dropLast_cons₂]
            exact List.mem_cons_self _ _
        · exact hsub x (ih x (by rw [hft]; exact hm2))
    · rw [List.filter_cons_of_neg (by simp [hp])] at h
      exact hsub x (ih x h)

theorem replay_from :
    ∀ (ks : List (List String)) (p : List String),
      (∀ k ∈ ks, quiet false k = true) →
      (∀ k ∈ ks, ∃ l t, k = l :: t ∧ isTrigger l = true) →
      (∀ k ∈ ks.dropLast, seenAfter false k = true) →
      chunksT true p ks.flatten = p :: ks := by
  intro ks
  induction ks with
  | nil => intro p _ _ _; simp [chunksT, spill, pendAfter]
  | cons k rest ih =>
    intro p hq ht hd
    obtain ⟨l, t, hk, htrig⟩ := ht k (List.mem_cons_self k rest)
    subst hk
    rw [List.flatten_cons]
    have hf : (true && isTrigger l) = true := by simp [htrig]
    have hsplit : chunksT true p ((l :: t) ++ rest.flatten) =
        p :: chunksT (updSeen true l) [l] (t ++ rest.flatten) := by
      simp only [List.cons_append]
      simp [chunksT, spill, pendAfter, hf]
    rw [hsplit]
    have hups : updSeen false l = updSeen true l := by
      rw [updSeen_trig false l htrig, updSeen_trig true l htrig]
    have hqt : quiet (updSeen true l) t = true := by
      have hq0 := hq (l :: t) (List.mem_cons_self _ _)
      simp only [quiet, Bool.and_false, Bool.false_and, Bool.not_false, Bool.true_and] at hq0
      rw [← hups]
      exact hq0
    obtain ⟨hsp, hpd⟩ := quiet_feed t (updSeen true l) [l] rest.flatten hqt
    have hchunks : chunksT (updSeen true l) [l] (t ++ rest.flatten) =
        chunksT (seenAfter (updSeen true l) t) ([l] ++ t) rest.flatten := by
      simp [chunksT, hsp, hpd]
    rw [hchunks]
    cases rest with
    | nil => simp [chunksT, spill, pendAfter]
    | cons k2 rest2 =>
      have hmem1 : (l :: t) ∈ ((l :: t) :: k2 :: rest2).dropLast := by
        rw [List.dropLast_cons₂]
        exact List.mem_cons_self _ _
      have hS : seenAfter (updSeen true l) t = true := by
        have hS0 := hd (l :: t) hmem1
        simp only [seenAfter] at hS0
        rw [hups] at hS0
        exact hS0
      rw [hS]
      rw [ih ([l] ++ t)
        (fun k3 h3 => hq k3 (List.mem_cons_of_mem _ h3))
        (fun k3 h3 => ht k3 (List.mem_cons_of_mem _ h3))
        (fun k3 h3 => hd k3 (by rw [List.dropLast_cons₂]; exact List.mem_cons_of_mem _ h3))]
      rfl

theorem replay_top (ks : List (List String)) (hne : ks ≠ [])
    (hq : ∀ k ∈ ks, quiet false k = true)
    (ht : ∀ k ∈ ks.tail, ∃ l t, k = l :: t ∧ isTrigger l = true)
    (hd : ∀ k ∈ ks.dropLast, seenAfter false k = true) :
    chunksT false [] ks.flatten = ks := by
  cases ks with
  | nil => exact absurd rfl hne
  | cons K1 rest =>
    rw [List.flatten_cons]
    have hqK1 : quiet false K1 = true := hq K1 (List.mem_cons_self _ _)
    obtain ⟨hsp, hpd⟩ := quiet_feed K1 false [] rest.flatten hqK1
    have hchunks : chunksT false [] (K1 ++ rest.flatten) =
        chunksT (seenAfter false K1) K1 rest.flatten := by
      simp [chunksT, hsp, hpd]
    rw [hchunks]
    cases rest with
    | nil => simp [chunksT, spill, pendAfter]
    | cons k2 rest2 =>
      have hmem1 : K1 ∈ (K1 :: k2 :: rest2).dropLast := by
        rw [List.dropLast_cons₂]
        exact List.mem_cons_self _ _
      rw [hd K1 hmem1]
      rw [replay_from (k2 :: rest2) K1
        (fun k3 h3 => hq k3 (List.mem_cons_of_mem _ h3))
        (fun k3 h3 => ht k3 (by simpa using h3))
        (fun k3 h3 => hd k3 (by rw [List.dropLast_cons₂]; exact List.mem_cons_of_mem _ h3))]

/-- C6: idempotence. Rerunning processFile with the same configuration and
matcher list on its own stdout reproduces that stdout exactly; moreover,
whenever at least one hunk was kept, the second run flushes exactly the kept
hunks of the first run, with identical buffered lines and eligibility flags
(and, the keep decision being a function of the buffer, keeps each again). -/
theorem C6_idempotent (cfg : Config) (ms : List Matcher) (input : List String) :
    (processFile cfg ms ((processFile cfg ms input).out)).out =
      (processFile cfg ms input).out ∧
    ((processFile cfg ms input).hunks.filter (fun hk => hunkKept hk ms) ≠ [] →
      (processFile cfg ms ((processFile cfg ms input).out)).hunks =
        (processFile cfg ms input).hunks.filter (fun hk => hunkKept hk ms)) := by
  have hout1 : (processFile cfg ms input).out =
      ((chunksT false [] input).filter (keptT cfg ms)).flatten := processFile_out cfg ms input
  have hfh : (processFile cfg ms input).hunks.filter (fun hk => hunkKept hk ms) =
      ((chunksT false [] input).filter (keptT cfg ms)).map (attachL cfg) := by
    rw [processFile_hunks, List.filter_map]
    rfl
  obtain ⟨hA, hBq, hBs⟩ :=
    struct_invariant input [] false (by simp [quiet]) (by simp [seenAfter])
  have hquiet : ∀ k ∈ (chunksT false [] input).filter (keptT cfg ms),
      quiet false k = true := by
    intro k hk2
    have hk3 : k ∈ chunksT false [] input := List.mem_of_mem_filter hk2
    unfold chunksT at hk3
    rcases List.mem_append.mp hk3 with hsp | hpd
    · exact (hA k hsp).1
    · have hpe : k = pendAfter false [] input := by simpa using hpd
      rw [hpe]
      exact hBq
  have htrig : ∀ k ∈ ((chunksT false [] input).filter (keptT cfg ms)).tail,
      ∃ l t, k = l :: t ∧ isTrigger l = true := by
    intro k hk2
    exact (chunks_head_tail input [] false).2 k (mem_filter_tail _ _ k hk2)
  have hdrop : ∀ k ∈ ((chunksT false [] input).filter (keptT cfg ms)).dropLast,
      seenAfter false k = true := by
    intro k hk2
    have h1 := mem_filter_dropLast (keptT cfg ms) _ k hk2
    have h2 : (chunksT false [] input).dropLast = spill false [] input := by
      unfold chunksT
      exact List.dropLast_concat
    rw [h2] at h1
    exact (hA k h1).2
  by_cases hne : (chunksT false [] input).filter (keptT cfg ms) = []
  · constructor
    · rw [hout1, hne]
      simp only [List.flatten_nil]
      rw [processFile_out]
      have hch : chunksT false [] ([] : List String) = [[]] := by
        simp [chunksT, spill, pendAfter]
      rw [hch]
      by_cases hk0 : keptT cfg ms [] = true
      · simp [hk0]
      · simp [hk0]
    · intro hcon
      rw [hfh, hne] at hcon
      simp at hcon
  · have hreplay := replay_top _ hne hquiet htrig hdrop
    have hfilter_self :
        ((chunksT false [] input).filter (keptT cfg ms)).filter (keptT cfg ms) =
          (chunksT false [] input).filter (keptT cfg ms) := by
      apply List.filter_eq_self.mpr
      intro k hk2
      exact (List.mem_filter.mp hk2).2
    constructor
    · rw [hout1, processFile_out, hreplay, hfilter_self]
    · intro hne2
      rw [hout1, processFile_hunks, hreplay, hfh]

/-- C6 witness: on a concrete input whose single hunk is kept, the second
run flushes exactly that kept hunk again. -/
theorem C6_witness :
    (processFile cfgPlain [inFoo]
        ((processFile cfgPlain [inFoo] ["--- a\n", "+foo\n"]).out)).hunks =
      (processFile cfgPlain [inFoo] ["--- a\n", "+foo\n"]).hunks.filter
        (fun hk => hunkKept hk [inFoo]) :=
  (C6_idempotent cfgPlain [inFoo] ["--- a\n", "+foo\n"]).2 (by decide)

end HunkTool
